import Mathlib

/-!
# Verification of the Personal Web Clipper's `MarkdownConverter`

Shallow embedding of the HTML→Markdown converter
(`MarkdownConverter` in the repository's web-clipper sources) and proofs
about it.  Strings are modelled through their character lists
(`String.data`); every JavaScript string operation used by the source
(`String.prototype.replace` with a single-character global pattern,
`trim`, `split('\n')`, `join('\n')`, the two cleanup regexes) is given an
explicit executable definition on `List Char`.
-/

namespace WebClipper

/-- JavaScript `str.replace(/c/g, r)` for a single-character pattern `c`:
every occurrence of the character `c` is replaced by the string `r`,
in one left-to-right pass over the input (insertions are not rescanned). -/
def replaceCharL (c : Char) (r : List Char) : List Char → List Char
  | [] => []
  | ch :: rest => (if ch = c then r else [ch]) ++ replaceCharL c r rest

/-- String-level wrapper for `replaceCharL`. -/
def replaceChar (s : String) (c : Char) (r : String) : String :=
  ⟨replaceCharL c r.data s.data⟩

/-- Whitespace test used by the embedding of JavaScript `String.prototype.trim`
(the source material only ever contains the four ASCII whitespace
characters space, tab, carriage return and line feed). -/
def isWS (c : Char) : Bool :=
  c = ' ' || c = '\t' || c = '\n' || c = '\r'

/-- JavaScript `str.trim()`: drop leading and trailing whitespace. -/
def trimL (xs : List Char) : List Char :=
  ((xs.dropWhile isWS).reverse.dropWhile isWS).reverse

/-- String-level wrapper for `trimL`. -/
def trimS (s : String) : String := ⟨trimL s.data⟩

/-- JavaScript `str.split('\n')` on character lists. -/
def splitNl : List Char → List (List Char)
  | [] => [[]]
  | c :: rest =>
    if c = '\n' then [] :: splitNl rest
    else
      match splitNl rest with
      | [] => [[c]]
      | p :: ps => (c :: p) :: ps

/-- JavaScript `parts.join('\n')` on character lists. -/
def joinNl : List (List Char) → List Char
  | [] => []
  | [p] => p
  | p :: ps => p ++ '\n' :: joinNl ps

/-- Flush a pending run of `k` newlines the way the regex
`/\n\x7b3,\x7d/g → "\n\n"` does: runs of three or more collapse to two. -/
def flushN (k : Nat) : List Char :=
  List.replicate (if 3 ≤ k then 2 else k) '\n'

/-- One pass of the regex `replace(/\n\x7b3,\x7d/g, '\n\n')`: `k` counts the
newlines seen so far in the current run. -/
def collapseAux (k : Nat) : List Char → List Char
  | [] => flushN k
  | c :: rest =>
    if c = '\n' then collapseAux (k + 1) rest
    else flushN k ++ c :: collapseAux 0 rest

/-- Embedding of `markdown.replace(/\n\x7b3,\x7d/g, '\n\n')`. -/
def collapseNewlines (s : String) : String := ⟨collapseAux 0 s.data⟩

/-- Remove the trailing spaces of one line (the `/ +$/` part of the
`/ +$/gm` regex; only the space character U+0020 matches). -/
def stripLine (l : List Char) : List Char :=
  (l.reverse.dropWhile (· = ' ')).reverse

/-- Embedding of `markdown.replace(/ +$/gm, '')`: with the `m` flag, `$`
matches before every `'\n'` and at the end of the string, so every line
loses its trailing spaces. -/
def stripTrailingSpaces (s : String) : String :=
  ⟨joinNl ((splitNl s.data).map stripLine)⟩

/-- The ten escape characters of `escapeMarkdown`, in source order. -/
def isMeta (c : Char) : Bool :=
  c = '\\' || c = '*' || c = '_' || c = '[' || c = ']' ||
  c = '(' || c = ')' || c = '#' || c = '+' || c = '!'

/-- Embedding of `MarkdownConverter.escapeMarkdown`: the chain of ten
global single-character `replace` calls of the source, `\` first. -/
def escapeMarkdown (text : String) : String :=
  let s1 := replaceChar text '\\' "\\\\"
  let s2 := replaceChar s1 '*' "\\*"
  let s3 := replaceChar s2 '_' "\\_"
  let s4 := replaceChar s3 '[' "\\["
  let s5 := replaceChar s4 ']' "\\]"
  let s6 := replaceChar s5 '(' "\\("
  let s7 := replaceChar s6 ')' "\\)"
  let s8 := replaceChar s7 '#' "\\#"
  let s9 := replaceChar s8 '+' "\\+"
  replaceChar s9 '!' "\\!"

/-- Modelled from the spec: "escape Markdown metacharacters in its text by
prefixing each with a backslash, in that fixed left-to-right single pass".
A single pass over the characters, inserting one backslash before each
metacharacter. -/
def escapeSpecL : List Char → List Char
  | [] => []
  | c :: rest => (if isMeta c then ['\\', c] else [c]) ++ escapeSpecL rest

/-- String-level wrapper for `escapeSpecL`. -/
def escapeSpec (s : String) : String := ⟨escapeSpecL s.data⟩

/-- Embedding of `MarkdownConverter.cleanupMarkdown`: collapse newline
runs, strip trailing spaces per line, trim the whole string. -/
def cleanupMarkdown (markdown : String) : String :=
  trimS (stripTrailingSpaces (collapseNewlines markdown))

/-- The DOM fragment handed to the converter: a text node carries its
`textContent`; an element carries its tag name, its attributes (name,
value pairs, as read by `getAttribute`) and its child nodes in document
order. The tree is acyclic by construction. -/
inductive Node where
  | text (s : String)
  | element (tag : String) (attrs : List (String × String)) (children : List Node)

/-- JavaScript `tagName.toLowerCase()` (character-wise lowering; tag names
are ASCII). -/
def toLowerS (s : String) : String := ⟨s.data.map Char.toLower⟩

/-- JavaScript `str.startsWith(p)`. -/
def strStartsWith (s p : String) : Bool := p.data.isPrefixOf s.data

/-- DOM `element.getAttribute(name)`: the value of the first attribute
with that name, or `none`. -/
def getAttr (attrs : List (String × String)) (name : String) : Option String :=
  (attrs.find? (fun p => p.1 = name)).map (fun p => p.2)

/-- DOM `node.textContent`: the concatenation of all descendant text. -/
def textContentL : List Node → String
  | [] => ""
  | Node.text s :: rest => s ++ textContentL rest
  | Node.element _ _ cs :: rest => textContentL cs ++ textContentL rest
termination_by ns => sizeOf ns

/-- DOM `node.textContent` of a single node. -/
def textContentS : Node → String
  | Node.text s => s
  | Node.element _ _ cs => textContentL cs

/-- The digit character of `n < 10`. -/
def digitChar (n : Nat) : Char := Char.ofNat (48 + n)

/-- Decimal digits of `n`, with structural fuel (`fuel > n` suffices, so
`natToDecimalL` below always has enough). -/
def natToDecimalAux : Nat → Nat → List Char
  | 0, _ => []
  | f + 1, n =>
    if n < 10 then [digitChar n]
    else natToDecimalAux f (n / 10) ++ [digitChar (n % 10)]

/-- Decimal rendering of a natural number, as JavaScript template
interpolation `${n}` produces for the list counter. -/
def natToDecimalL (n : Nat) : List Char := natToDecimalAux (n + 1) n

/-- String-level wrapper for `natToDecimalL`. -/
def natToDecimal (n : Nat) : String := ⟨natToDecimalL n⟩

/-- Embedding of `MarkdownConverter.wrapWithElementFormatting`: the
`switch` over tag names applied to the concatenated, recursively
processed children. -/
def wrapWithElementFormatting (content : String) (tagName : String) : String :=
  let trimmedContent := trimS content
  if trimmedContent = "" then "" else
  if tagName = "h1" then "\n# " ++ trimmedContent ++ "\n\n" else
  if tagName = "h2" then "\n## " ++ trimmedContent ++ "\n\n" else
  if tagName = "h3" then "\n### " ++ trimmedContent ++ "\n\n" else
  if tagName = "h4" then "\n#### " ++ trimmedContent ++ "\n\n" else
  if tagName = "h5" then "\n##### " ++ trimmedContent ++ "\n\n" else
  if tagName = "h6" then "\n###### " ++ trimmedContent ++ "\n\n" else
  if tagName = "blockquote" then
    "\n" ++
      ⟨joinNl (((splitNl trimmedContent.data).filter (fun l => l ≠ [])).map
        (fun line => '>' :: ' ' :: line))⟩ ++ "\n\n" else
  if tagName = "p" then "\n" ++ trimmedContent ++ "\n\n" else
  if tagName = "strong" || tagName = "b" then "**" ++ trimmedContent ++ "**" else
  if tagName = "em" || tagName = "i" then "*" ++ trimmedContent ++ "*" else
  if tagName = "li" then "" else
  content

mutual

/-- Embedding of `MarkdownConverter.processNode`: text nodes are escaped;
elements first try a direct conversion by (lower-cased) tag name, and
otherwise their processed children are wrapped by tag formatting. -/
def processNode : Node → String
  | Node.text s => escapeMarkdown s
  | Node.element tag attrs children =>
    match getDirectConversion tag attrs children (toLowerS tag) with
    | some r => r
    | none => wrapWithElementFormatting (processNodes children) (toLowerS tag)
termination_by n => (sizeOf n, 3)

/-- The concatenation loop `for (const child of element.childNodes)
result += this.processNode(child)` of the source. -/
def processNodes : List Node → String
  | [] => ""
  | c :: cs => processNode c ++ processNodes cs
termination_by ns => (sizeOf ns, 3)

/-- Embedding of `MarkdownConverter.getDirectConversion`, given the
element's pieces and its lower-cased tag name. -/
def getDirectConversion (_tag : String) (attrs : List (String × String))
    (children : List Node) (tagName : String) : Option String :=
  let text := trimS (textContentL children)
  if tagName = "code" then some ("`" ++ text ++ "`") else
  if tagName = "pre" then some ("\n```\n" ++ text ++ "\n```\n\n") else
  if tagName = "ul" then some (convertList children false) else
  if tagName = "ol" then some (convertList children true) else
  if tagName = "a" then
    some (match getAttr attrs "href" with
      | some href => if href ≠ "" && strStartsWith href "http"
          then "[" ++ text ++ "](" ++ href ++ ")" else text
      | none => text) else
  if tagName = "img" then
    some (match getAttr attrs "src" with
      | some src =>
        if src ≠ "" then
          let alt := match getAttr attrs "alt" with
            | some a => if a = "" then "Image" else a
            | none => "Image"
          "![" ++ alt ++ "](" ++ src ++ ")"
        else ""
      | none => "") else
  if tagName = "br" then some "\n" else
  if tagName = "hr" then some "\n---\n\n" else
  none
termination_by (sizeOf children, 2)

/-- Embedding of `MarkdownConverter.convertList`: `'\n'`, then one line
per direct `li` child, then a final `'\n'`. -/
def convertList (children : List Node) (ordered : Bool) : String :=
  "\n" ++ convertListItems children ordered 1 ++ "\n"
termination_by (sizeOf children, 1)

/-- The item loop of `convertList`: iterate the element children
(`listElement.children` skips text nodes), keep those whose tag is `li`,
and emit `pfx ++ trimmed-and-indented content ++ "\n"`, incrementing the
counter only for `li` items of an ordered list. -/
def convertListItems : List Node → Bool → Nat → String
  | [], _, _ => ""
  | Node.text _ :: rest, ordered, idx => convertListItems rest ordered idx
  | Node.element t _ cs :: rest, ordered, idx =>
    if toLowerS t = "li" then
      let pfx := if ordered then natToDecimal idx ++ ". " else "- "
      let itemContent := processNodes cs
      let processedContent := replaceChar (trimS itemContent) '\n' "\n  "
      pfx ++ processedContent ++ "\n" ++
        convertListItems rest ordered (if ordered then idx + 1 else idx)
    else convertListItems rest ordered idx
termination_by ns _ _ => (sizeOf ns, 0)

end

/-- Embedding of `MarkdownConverter.htmlToMarkdown`: process the root
node and clean up the result. -/
def htmlToMarkdown (element : Node) : String :=
  cleanupMarkdown (processNode element)

/-- The front-matter block built by `createMarkdownDocument` (the
template literal `frontMatter` of the source, with the embedded `"` of
the title escaped by `title.replace(/"/g, '\\"')`). -/
def createFrontMatter (title url timestamp : String) : String :=
  "---\ntitle: \"" ++ replaceChar title '"' "\\\"" ++
  "\"\nurl: \"" ++ url ++
  "\"\nclipped: \"" ++ timestamp ++
  "\"\nsource: \"Personal Web Clipper\"\n---\n\n"

/-- Embedding of `MarkdownConverter.createMarkdownDocument`.
`localeString` stands for `new Date(timestamp).toLocaleString()`, whose
value depends on the host locale and time zone and is therefore a
parameter of the embedding. -/
def createMarkdownDocument (title content url timestamp localeString : String) :
    String :=
  createFrontMatter title url timestamp ++
  "# " ++ title ++ "\n\n" ++ content ++
  "\n\n---\n\n**Source:** [" ++ url ++ "](" ++ url ++ ")  \n**Clipped:** " ++
  localeString

/-- The `replace` chain of `escapeMarkdown`, at the character-list level. -/
def escapeL (xs : List Char) : List Char :=
  replaceCharL '!' ['\\', '!']
    (replaceCharL '+' ['\\', '+']
      (replaceCharL '#' ['\\', '#']
        (replaceCharL ')' ['\\', ')']
          (replaceCharL '(' ['\\', '(']
            (replaceCharL ']' ['\\', ']']
              (replaceCharL '[' ['\\', '[']
                (replaceCharL '_' ['\\', '_']
                  (replaceCharL '*' ['\\', '*']
                    (replaceCharL '\\' ['\\', '\\'] xs)))))))))

/-- Concatenation of a list of strings (the accumulation pattern the
source uses when it appends item lines to `markdown`). -/
def strConcat : List String → String
  | [] => ""
  | s :: rest => s ++ strConcat rest

/-- The contents of the direct `li` element children of a node list
(`listElement.children` filtered to tag `li`, as `convertList` iterates
them). -/
def liChildren (cs : List Node) : List (List Node) :=
  cs.filterMap (fun n => match n with
    | Node.element t _ cs' => if toLowerS t = "li" then some cs' else none
    | Node.text _ => none)

/-- The body of one list item line: the recursively converted child
nodes, trimmed, with embedded newlines re-indented by two spaces. -/
def listItemLine (item : List Node) : String :=
  replaceChar (trimS (processNodes item)) '\n' "\n  "

/-- The tags that receive special treatment somewhere in the converter
(direct conversions plus the wrap cases of `wrapWithElementFormatting`);
every other tag is a transparent container. -/
def specialTags : List String :=
  ["code", "pre", "ul", "ol", "a", "img", "br", "hr",
   "h1", "h2", "h3", "h4", "h5", "h6",
   "blockquote", "p", "strong", "b", "em", "i", "li"]

/-- The lines of a string, as JavaScript `str.split('\n')` produces
them. -/
def linesOf (s : String) : List String := (splitNl s.data).map (fun l => ⟨l⟩)

mutual

/-- Fuel-bounded interpreter for `processNode`: returns `none` when the
fuel runs out, mirroring the recursion of the source otherwise.  Used to
express that the converter terminates on every acyclic tree. -/
def processNodeF : Nat → Node → Option String
  | 0, _ => none
  | _ + 1, Node.text s => some (escapeMarkdown s)
  | f + 1, Node.element tag attrs children =>
    match getDirectConversionF f tag attrs children (toLowerS tag) with
    | none => none
    | some (some r) => some r
    | some none =>
      (processNodesF f children).map
        (fun content => wrapWithElementFormatting content (toLowerS tag))

/-- Fuel-bounded interpreter for `processNodes`. -/
def processNodesF : Nat → List Node → Option String
  | 0, _ => none
  | _ + 1, [] => some ""
  | f + 1, c :: cs =>
    match processNodeF f c, processNodesF f cs with
    | some hd, some tl => some (hd ++ tl)
    | _, _ => none

/-- Fuel-bounded interpreter for `getDirectConversion`: the outer
`Option` is fuel exhaustion, the inner one is the presence of a direct
conversion. -/
def getDirectConversionF : Nat → String → List (String × String) →
    List Node → String → Option (Option String)
  | 0, _, _, _, _ => none
  | f + 1, _tag, attrs, children, tagName =>
    let text := trimS (textContentL children)
    if tagName = "code" then some (some ("`" ++ text ++ "`")) else
    if tagName = "pre" then some (some ("\n```\n" ++ text ++ "\n```\n\n")) else
    if tagName = "ul" then (convertListF f children false).map some else
    if tagName = "ol" then (convertListF f children true).map some else
    if tagName = "a" then
      some (some (match getAttr attrs "href" with
        | some href => if href ≠ "" && strStartsWith href "http"
            then "[" ++ text ++ "](" ++ href ++ ")" else text
        | none => text)) else
    if tagName = "img" then
      some (some (match getAttr attrs "src" with
        | some src =>
          if src ≠ "" then
            let alt := match getAttr attrs "alt" with
              | some a => if a = "" then "Image" else a
              | none => "Image"
            "![" ++ alt ++ "](" ++ src ++ ")"
          else ""
        | none => "")) else
    if tagName = "br" then some (some "\n") else
    if tagName = "hr" then some (some "\n---\n\n") else
    some none

/-- Fuel-bounded interpreter for `convertList`. -/
def convertListF : Nat → List Node → Bool → Option String
  | 0, _, _ => none
  | f + 1, children, ordered =>
    (convertListItemsF f children ordered 1).map
      (fun body => "\n" ++ body ++ "\n")

/-- Fuel-bounded interpreter for `convertListItems`. -/
def convertListItemsF : Nat → List Node → Bool → Nat → Option String
  | 0, _, _, _ => none
  | _ + 1, [], _, _ => some ""
  | f + 1, Node.text _ :: rest, ordered, idx =>
    convertListItemsF f rest ordered idx
  | f + 1, Node.element t _ cs :: rest, ordered, idx =>
    if toLowerS t = "li" then
      match processNodesF f cs,
        convertListItemsF f rest ordered (if ordered then idx + 1 else idx) with
      | some itemContent, some tl =>
        let pfx := if ordered then natToDecimal idx ++ ". " else "- "
        some (pfx ++ replaceChar (trimS itemContent) '\n' "\n  " ++ "\n" ++ tl)
      | _, _ => none
    else convertListItemsF f rest ordered idx

end

/-- Detector for a run of three consecutive newlines. -/
def hasRun3 : List Char → Bool
  | a :: b :: c :: rest =>
    (a = '\n' && b = '\n' && c = '\n') || hasRun3 (b :: c :: rest)
  | _ => false

/-- Number of backtick characters in a string (each code span contributes
two, each fenced block six, so balanced output has an even count). -/
def countTick (s : String) : Nat := s.data.count '`'

/-- Number of fence lines (lines that are exactly three backticks). -/
def fenceLineCount (s : String) : Nat :=
  ((splitNl s.data).filter (fun l => l = ['`', '`', '`'])).length

/-- Attribute values free of backticks. -/
def attrsTickFree : List (String × String) → Bool
  | [] => true
  | (_, v) :: rest => !v.data.contains '`' && attrsTickFree rest

mutual

/-- All text and attribute values of the tree free of backticks. -/
def nodeTickFree : Node → Bool
  | Node.text s => !s.data.contains '`'
  | Node.element _ attrs cs => attrsTickFree attrs && nodesTickFree cs

/-- `nodeTickFree` over a node list. -/
def nodesTickFree : List Node → Bool
  | [] => true
  | c :: cs => nodeTickFree c && nodesTickFree cs

end

theorem escapeMarkdown_eq_escapeL (s : String) :
    escapeMarkdown s = ⟨escapeL s.data⟩ := rfl

theorem replaceCharL_append (c : Char) (r : List Char) (xs ys : List Char) :
    replaceCharL c r (xs ++ ys) = replaceCharL c r xs ++ replaceCharL c r ys := by
  induction xs with
  | nil => simp [replaceCharL]
  | cons x xs ih => simp [replaceCharL, ih]

theorem escapeL_append (xs ys : List Char) :
    escapeL (xs ++ ys) = escapeL xs ++ escapeL ys := by
  simp [escapeL, replaceCharL_append]

theorem escapeL_cons (c : Char) (xs : List Char) :
    escapeL (c :: xs) = escapeL [c] ++ escapeL xs := by
  rw [show c :: xs = [c] ++ xs from rfl, escapeL_append]

theorem escapeL_single (c : Char) :
    escapeL [c] = if isMeta c then ['\\', c] else [c] := by
  by_cases h1 : c = '\\'
  · subst h1; decide
  by_cases h2 : c = '*'
  · subst h2; decide
  by_cases h3 : c = '_'
  · subst h3; decide
  by_cases h4 : c = '['
  · subst h4; decide
  by_cases h5 : c = ']'
  · subst h5; decide
  by_cases h6 : c = '('
  · subst h6; decide
  by_cases h7 : c = ')'
  · subst h7; decide
  by_cases h8 : c = '#'
  · subst h8; decide
  by_cases h9 : c = '+'
  · subst h9; decide
  by_cases h10 : c = '!'
  · subst h10; decide
  have hm : isMeta c = false := by
    simp [isMeta, h1, h2, h3, h4, h5, h6, h7, h8, h9, h10]
  simp [escapeL, replaceCharL, h1, h2, h3, h4, h5, h6, h7, h8, h9, h10, hm]

theorem escapeL_eq_spec (xs : List Char) : escapeL xs = escapeSpecL xs := by
  induction xs with
  | nil => decide
  | cons c rest ih => rw [escapeL_cons, escapeL_single]; simp [escapeSpecL, ih]

/-- C1: for every text node the converter escapes the Markdown
metacharacters `\ * _ [ ] ( ) # + !` by prefixing each occurrence with
exactly one backslash; the source's replacement chain (backslash first)
coincides with a single left-to-right pass (`escapeSpec`) in which
inserted backslashes are never re-escaped, and `a*b ↦ a\*b`,
`a\b ↦ a\\b`. -/
theorem escapeMarkdown_single_pass :
    (∀ s : String, processNode (Node.text s) = escapeSpec s) ∧
    (∀ s : String, escapeMarkdown s = escapeSpec s) ∧
    escapeMarkdown "a*b" = "a\\*b" ∧ escapeMarkdown "a\\b" = "a\\\\b" := by
  have key : ∀ s : String, escapeMarkdown s = escapeSpec s := by
    intro s
    rw [escapeMarkdown_eq_escapeL, escapeL_eq_spec]; rfl
  refine ⟨fun s => ?_, key, by decide, by decide⟩
  rw [show processNode (Node.text s) = escapeMarkdown s from by
    simp [processNode]]
  exact key s

theorem convertListItems_unordered (cs : List Node) (idx : Nat) :
    convertListItems cs false idx =
      strConcat ((liChildren cs).map (fun item => "- " ++ listItemLine item ++ "\n")) := by
  induction cs generalizing idx with
  | nil => simp [convertListItems, liChildren, strConcat]
  | cons c rest ih =>
    cases c with
    | text s => simpa [convertListItems, liChildren] using ih idx
    | element t a cs' =>
      by_cases h : toLowerS t = "li"
      · simp [convertListItems, liChildren, h, strConcat, listItemLine, ih idx,
          String.append_assoc]
      · simpa [convertListItems, liChildren, h] using ih idx

theorem convertListItems_ordered (cs : List Node) (idx : Nat) :
    convertListItems cs true idx =
      strConcat (((liChildren cs).enumFrom idx).map
        (fun p => natToDecimal p.1 ++ ". " ++ listItemLine p.2 ++ "\n")) := by
  induction cs generalizing idx with
  | nil => simp [convertListItems, liChildren, strConcat]
  | cons c rest ih =>
    cases c with
    | text s => simpa [convertListItems, liChildren] using ih idx
    | element t a cs' =>
      by_cases h : toLowerS t = "li"
      · simp [convertListItems, liChildren, h, strConcat, listItemLine,
          ih (idx + 1), List.enumFrom, String.append_assoc]
      · simpa [convertListItems, liChildren, h] using ih idx

/-- C2: list conversion iterates only the direct `li` children in
document order; each item's converted content is trimmed, its embedded
newlines re-indented by two spaces, and prefixed with `"- "` (unordered)
or `"n. "` with `n` counting `li` items from 1 regardless of gaps; the
two example lists convert to `"- One\n- Two"` and `"1. A\n2. B"`, and a
non-`li` gap does not disturb the numbering. -/
theorem convertList_direct_li_children :
    (∀ cs : List Node, convertList cs false =
      "\n" ++ strConcat ((liChildren cs).map
        (fun item => "- " ++ listItemLine item ++ "\n")) ++ "\n") ∧
    (∀ cs : List Node, convertList cs true =
      "\n" ++ strConcat (((liChildren cs).enumFrom 1).map
        (fun p => natToDecimal p.1 ++ ". " ++ listItemLine p.2 ++ "\n")) ++ "\n") ∧
    htmlToMarkdown (Node.element "ul" []
      [Node.element "li" [] [Node.text "One"],
       Node.element "li" [] [Node.text "Two"]]) = "- One\n- Two" ∧
    htmlToMarkdown (Node.element "ol" []
      [Node.element "li" [] [Node.text "A"],
       Node.element "li" [] [Node.text "B"]]) = "1. A\n2. B" ∧
    htmlToMarkdown (Node.element "ol" []
      [Node.element "li" [] [Node.text "A"],
       Node.element "div" [] [Node.text "X"],
       Node.element "li" [] [Node.text "B"]]) = "1. A\n2. B" := by
  refine ⟨fun cs => ?_, fun cs => ?_, ?_, ?_, ?_⟩
  · rw [convertList, convertListItems_unordered]
  · rw [convertList, convertListItems_ordered]
  · simp [htmlToMarkdown, processNode, getDirectConversion, convertList,
      convertListItems, processNodes, cleanupMarkdown, escapeMarkdown,
      replaceChar, trimS, textContentL]
    decide
  · simp [htmlToMarkdown, processNode, getDirectConversion, convertList,
      convertListItems, processNodes, cleanupMarkdown, escapeMarkdown,
      replaceChar, trimS, textContentL, natToDecimal, natToDecimalL,
      natToDecimalAux]
    decide
  · simp [htmlToMarkdown, processNode, getDirectConversion, convertList,
      convertListItems, processNodes, cleanupMarkdown, escapeMarkdown,
      replaceChar, trimS, textContentL, natToDecimal, natToDecimalL,
      natToDecimalAux]
    decide

/-- C5 counterexample: a transparent container whose children concatenate
to whitespace-only content emits the empty string rather than that
content, so whitespace is not preserved through such containers: the
`span` around a single space vanishes and `a`/`b` become adjacent,
whereas the same space as a bare sibling text node survives. -/
theorem transparent_container_drops_whitespace :
    processNodes [Node.text " "] = " " ∧
    processNode (Node.element "span" [] [Node.text " "]) = "" ∧
    (" " : String) ≠ "" ∧
    htmlToMarkdown (Node.element "p" []
      [Node.text "a", Node.element "span" [] [Node.text " "], Node.text "b"])
      = "ab" ∧
    htmlToMarkdown (Node.element "p" []
      [Node.text "a", Node.text " ", Node.text "b"]) = "a b" := by
  refine ⟨?_, ?_, by decide, ?_, ?_⟩
  · simp [processNodes, processNode, escapeMarkdown, replaceChar]
    decide
  · simp [processNode, getDirectConversion, processNodes, escapeMarkdown,
      replaceChar, trimS, textContentL, wrapWithElementFormatting]
    decide
  · simp [htmlToMarkdown, processNode, getDirectConversion, processNodes,
      escapeMarkdown, replaceChar, trimS, textContentL,
      wrapWithElementFormatting, cleanupMarkdown]
    decide
  · simp [htmlToMarkdown, processNode, getDirectConversion, processNodes,
      escapeMarkdown, replaceChar, trimS, textContentL,
      wrapWithElementFormatting, cleanupMarkdown]
    decide

/-- C5 amended: for every element whose (lower-cased) tag has no special
conversion rule, the converter emits exactly the concatenation of its
recursively converted children, unmodified — provided that concatenation
has non-whitespace content; a whitespace-only concatenation is emitted as
the empty string instead. -/
theorem transparent_container_passthrough (tag : String)
    (attrs : List (String × String)) (cs : List Node)
    (h : toLowerS tag ∉ specialTags) :
    (trimS (processNodes cs) ≠ "" →
      processNode (Node.element tag attrs cs) = processNodes cs) ∧
    (trimS (processNodes cs) = "" →
      processNode (Node.element tag attrs cs) = "") := by
  simp only [specialTags, List.mem_cons, List.mem_singleton, not_or] at h
  obtain ⟨h1, h2, h3, h4, h5, h6, h7, h8, h9, h10, h11, h12, h13, h14,
    h15, h16, h17, h18, h19, h20, h21⟩ := h
  have hd : getDirectConversion tag attrs cs (toLowerS tag) = none := by
    simp [getDirectConversion, h1, h2, h3, h4, h5, h6, h7, h8]
  constructor
  · intro hne
    simp [processNode, hd, wrapWithElementFormatting, hne, h9, h10, h11, h12,
      h13, h14, h15, h16, h17, h18, h19, h20, h21]
  · intro heq
    simp [processNode, hd, wrapWithElementFormatting, heq]

/-- C5 witness: the `div` tag is transparent and passes non-whitespace
content through unchanged. -/
theorem transparent_container_passthrough_witness :
    toLowerS "div" ∉ specialTags ∧
    processNode (Node.element "div" [] [Node.text "a"]) =
      processNodes [Node.text "a"] := by
  refine ⟨by decide, ?_⟩
  exact (transparent_container_passthrough "div" [] [Node.text "a"]
    (by decide)).1
    (by simp [processNodes, processNode, escapeMarkdown, replaceChar, trimS]
        decide)

/-- C6 counterexample: `code` and `pre` do not emit the element's full
text content — the text is trimmed first, so surrounding whitespace
(including the leading indentation of a `pre` block) is lost. -/
theorem code_pre_trim_counterexample :
    textContentS (Node.element "code" [] [Node.text " x "]) = " x " ∧
    processNode (Node.element "code" [] [Node.text " x "]) = "`x`" ∧
    ("`x`" : String) ≠ "` x `" ∧
    textContentS (Node.element "pre" [] [Node.text "  y "]) = "  y " ∧
    processNode (Node.element "pre" [] [Node.text "  y "]) = "\n```\ny\n```\n\n" ∧
    ("\n```\ny\n```\n\n" : String) ≠ "\n```\n  y \n```\n\n" := by
  refine ⟨by simp [textContentS, textContentL], ?_, by decide,
    by simp [textContentS, textContentL], ?_, by decide⟩
  · simp [processNode, getDirectConversion, textContentL, trimS]
    decide
  · simp [processNode, getDirectConversion, textContentL, trimS]
    decide

/-- C6 amended: a `code` element emits its full concatenated text
content, trimmed of surrounding whitespace, wrapped in a single backtick
pair; a `pre` element emits its full concatenated text content, trimmed,
in a triple-backtick fenced block surrounded by blank lines. -/
theorem code_pre_direct_conversion :
    (∀ (tag : String) (attrs : List (String × String)) (cs : List Node),
      toLowerS tag = "code" →
      processNode (Node.element tag attrs cs) =
        "`" ++ trimS (textContentL cs) ++ "`") ∧
    (∀ (tag : String) (attrs : List (String × String)) (cs : List Node),
      toLowerS tag = "pre" →
      processNode (Node.element tag attrs cs) =
        "\n```\n" ++ trimS (textContentL cs) ++ "\n```\n\n") ∧
    processNode (Node.element "code" []
      [Node.text "a", Node.element "span" [] [Node.text "b"]]) = "`ab`" := by
  refine ⟨fun tag attrs cs h => ?_, fun tag attrs cs h => ?_, ?_⟩
  · simp [processNode, getDirectConversion, h]
  · simp [processNode, getDirectConversion, h]
  · simp [processNode, getDirectConversion, textContentL, trimS]
    decide

/-- C6 witness: the `code` rule applied at a concrete element. -/
theorem code_pre_direct_conversion_witness :
    processNode (Node.element "code" [] [Node.text "x y"]) = "`x y`" := by
  have h := code_pre_direct_conversion.1 "code" [] [Node.text "x y"] (by decide)
  rw [h]
  simp [textContentL, trimS]
  decide

/-- C8: `createMarkdownDocument` renders its front matter with the
embedded double quotes of the title escaped and the url and ISO
timestamp verbatim; for the concrete inputs of the claim the front
matter contains exactly the three expected lines, and every produced
document starts with that front matter. -/
theorem createMarkdownDocument_front_matter :
    createFrontMatter "My \"Title\"" "http://u" "2024-01-01T00:00:00.000Z" =
      "---\ntitle: \"My \\\"Title\\\"\"\nurl: \"http://u\"\nclipped: \"2024-01-01T00:00:00.000Z\"\nsource: \"Personal Web Clipper\"\n---\n\n" ∧
    ("title: \"My \\\"Title\\\"\"" ∈
      linesOf (createFrontMatter "My \"Title\"" "http://u"
        "2024-01-01T00:00:00.000Z")) ∧
    ("url: \"http://u\"" ∈
      linesOf (createFrontMatter "My \"Title\"" "http://u"
        "2024-01-01T00:00:00.000Z")) ∧
    ("clipped: \"2024-01-01T00:00:00.000Z\"" ∈
      linesOf (createFrontMatter "My \"Title\"" "http://u"
        "2024-01-01T00:00:00.000Z")) ∧
    (∀ title content url ts loc : String,
      createMarkdownDocument title content url ts loc =
        createFrontMatter title url ts ++
          ("# " ++ title ++ "\n\n" ++ content ++
            "\n\n---\n\n**Source:** [" ++ url ++ "](" ++ url ++
            ")  \n**Clipped:** " ++ loc)) := by
  refine ⟨by decide, by decide, by decide, by decide, ?_⟩
  intro title content url ts loc
  simp [createMarkdownDocument, String.append_assoc]

/-- C10: `a`, `code` and `pre` take their emitted text from the raw
concatenated text content, trimmed but with no Markdown escaping, and
`img` emits its raw attribute values; the same `*` that is escaped in an
ordinary text node appears unescaped inside link text. -/
theorem direct_conversion_no_escaping :
    (∀ (tag href : String) (attrs : List (String × String)) (cs : List Node),
      toLowerS tag = "a" → getAttr attrs "href" = some href → href ≠ "" →
      strStartsWith href "http" = true →
      processNode (Node.element tag attrs cs) =
        "[" ++ trimS (textContentL cs) ++ "](" ++ href ++ ")") ∧
    (∀ (tag : String) (attrs : List (String × String)) (cs : List Node),
      toLowerS tag = "a" → getAttr attrs "href" = none →
      processNode (Node.element tag attrs cs) = trimS (textContentL cs)) ∧
    (∀ (tag src alt : String) (attrs : List (String × String)) (cs : List Node),
      toLowerS tag = "img" → getAttr attrs "src" = some src → src ≠ "" →
      getAttr attrs "alt" = some alt → alt ≠ "" →
      processNode (Node.element tag attrs cs) =
        "![" ++ alt ++ "](" ++ src ++ ")") ∧
    htmlToMarkdown (Node.element "a" [("href", "http://u")]
      [Node.text "a*b"]) = "[a*b](http://u)" ∧
    htmlToMarkdown (Node.text "a*b") = "a\\*b" := by
  refine ⟨fun tag href attrs cs h hh hne hs => ?_,
    fun tag attrs cs h hh => ?_,
    fun tag src alt attrs cs h hs hsne ha hane => ?_, ?_, ?_⟩
  · simp [processNode, getDirectConversion, h, hh, hne, hs]
  · simp [processNode, getDirectConversion, h, hh]
  · simp [processNode, getDirectConversion, h, hs, hsne, ha, hane]
  · simp [htmlToMarkdown, processNode, getDirectConversion, processNodes,
      escapeMarkdown, replaceChar, trimS, textContentL, cleanupMarkdown,
      getAttr, strStartsWith]
    decide
  · simp [htmlToMarkdown, processNode, escapeMarkdown, replaceChar,
      cleanupMarkdown]
    decide

theorem node_sizeOf_pos (n : Node) : 0 < sizeOf n := by
  cases n <;> simp_arith

theorem list_sizeOf_pos (cs : List Node) : 0 < sizeOf cs := by
  cases cs <;> simp_arith

theorem fuel_adequacy (f : Nat) :
    (∀ n, 5 * sizeOf n ≤ f → processNodeF f n = some (processNode n)) ∧
    (∀ cs, 5 * sizeOf cs + 1 ≤ f →
      processNodesF f cs = some (processNodes cs)) ∧
    (∀ tag attrs cs tn, 5 * sizeOf cs + 4 ≤ f →
      getDirectConversionF f tag attrs cs tn =
        some (getDirectConversion tag attrs cs tn)) ∧
    (∀ cs b, 5 * sizeOf cs + 3 ≤ f →
      convertListF f cs b = some (convertList cs b)) ∧
    (∀ cs b i, 5 * sizeOf cs + 2 ≤ f →
      convertListItemsF f cs b i = some (convertListItems cs b i)) := by
  induction f with
  | zero =>
    refine ⟨fun n h => absurd h ?_, fun cs h => by omega,
      fun tag attrs cs tn h => by omega, fun cs b h => by omega,
      fun cs b i h => by omega⟩
    have := node_sizeOf_pos n
    omega
  | succ f ih =>
    obtain ⟨ih1, ih2, ih3, ih4, ih5⟩ := ih
    refine ⟨?_, ?_, ?_, ?_, ?_⟩
    · intro n h
      cases n with
      | text s => simp [processNodeF, processNode]
      | element tag attrs cs =>
        have hb : 5 * sizeOf cs + 4 ≤ f := by
          simp only [Node.element.sizeOf_spec] at h; omega
        rw [show processNodeF (f + 1) (Node.element tag attrs cs) =
          (match getDirectConversionF f tag attrs cs (toLowerS tag) with
            | none => none
            | some (some r) => some r
            | some none =>
              (processNodesF f cs).map
                (fun content =>
                  wrapWithElementFormatting content (toLowerS tag))) from rfl]
        rw [ih3 tag attrs cs (toLowerS tag) hb]
        cases hgd : getDirectConversion tag attrs cs (toLowerS tag) with
        | some r => simp [processNode, hgd]
        | none =>
          have hb2 : 5 * sizeOf cs + 1 ≤ f := by omega
          rw [show (match (some (none : Option String) :
              Option (Option String)) with
            | none => (none : Option String)
            | some (some r) => some r
            | some none =>
              (processNodesF f cs).map
                (fun content =>
                  wrapWithElementFormatting content (toLowerS tag))) =
            (processNodesF f cs).map
                (fun content =>
                  wrapWithElementFormatting content (toLowerS tag)) from rfl]
          rw [ih2 cs hb2]
          simp [processNode, hgd]
    · intro cs h
      cases cs with
      | nil => simp [processNodesF, processNodes]
      | cons c rest =>
        have hc : 5 * sizeOf c ≤ f := by
          simp only [List.cons.sizeOf_spec] at h; omega
        have hr : 5 * sizeOf rest + 1 ≤ f := by
          simp only [List.cons.sizeOf_spec] at h; omega
        simp [processNodesF, ih1 c hc, ih2 rest hr, processNodes]
    · intro tag attrs cs tn h
      have hb : 5 * sizeOf cs + 3 ≤ f := by omega
      have h4f := ih4 cs false hb
      have h4t := ih4 cs true hb
      simp only [getDirectConversionF, getDirectConversion]
      by_cases h1 : tn = "code"
      · simp [h1]
      by_cases h2 : tn = "pre"
      · simp [h1, h2]
      by_cases h3 : tn = "ul"
      · simp [h1, h2, h3, h4f]
      by_cases h4 : tn = "ol"
      · simp [h1, h2, h3, h4, h4t]
      by_cases h5 : tn = "a"
      · simp [h1, h2, h3, h4, h5]
      by_cases h6 : tn = "img"
      · simp [h1, h2, h3, h4, h5, h6]
      by_cases h7 : tn = "br"
      · simp [h1, h2, h3, h4, h5, h6, h7]
      by_cases h8 : tn = "hr"
      · simp [h1, h2, h3, h4, h5, h6, h7, h8]
      simp [h1, h2, h3, h4, h5, h6, h7, h8]
    · intro cs b h
      have hb : 5 * sizeOf cs + 2 ≤ f := by omega
      simp [convertListF, ih5 cs b 1 hb, convertList]
    · intro cs b i h
      induction cs generalizing i with
      | nil => simp [convertListItemsF, convertListItems]
      | cons c rest _ =>
        cases c with
        | text s =>
          have hr : 5 * sizeOf rest + 2 ≤ f := by
            simp only [List.cons.sizeOf_spec, Node.text.sizeOf_spec] at h
            omega
          simp [convertListItemsF, convertListItems, ih5 rest b i hr]
        | element t a cs' =>
          have hr : 5 * sizeOf rest + 2 ≤ f := by
            simp only [List.cons.sizeOf_spec, Node.element.sizeOf_spec] at h
            omega
          have hcs' : 5 * sizeOf cs' + 1 ≤ f := by
            simp only [List.cons.sizeOf_spec, Node.element.sizeOf_spec] at h
            omega
          by_cases hli : toLowerS t = "li"
          · simp [convertListItemsF, convertListItems, hli, ih2 cs' hcs',
              ih5 rest b (if b then i + 1 else i) hr]
          · simp [convertListItemsF, convertListItems, hli, ih5 rest b i hr]

/-- C3: the converter is total — a fuel-bounded interpreter that mirrors
its recursion succeeds (`some`) on every acyclic tree as soon as the
fuel reaches five times the tree size, agreeing with `processNode`; and
on every element whose tag has no direct conversion the converter falls
through to processing and concatenating the children rather than
failing. -/
theorem htmlToMarkdown_total :
    (∀ (n : Node) (fuel : Nat), 5 * sizeOf n ≤ fuel →
      processNodeF fuel n = some (processNode n)) ∧
    (∀ n : Node, ∃ s : String, processNodeF (5 * sizeOf n) n = some s ∧
      htmlToMarkdown n = cleanupMarkdown s) ∧
    (∀ (tag : String) (attrs : List (String × String)) (cs : List Node),
      getDirectConversion tag attrs cs (toLowerS tag) = none →
      processNode (Node.element tag attrs cs) =
        wrapWithElementFormatting (processNodes cs) (toLowerS tag)) := by
  refine ⟨fun n fuel h => (fuel_adequacy fuel).1 n h,
    fun n => ⟨processNode n, (fuel_adequacy (5 * sizeOf n)).1 n (le_refl _),
      rfl⟩,
    fun tag attrs cs h => by simp [processNode, h]⟩

/-- C3 witness: the fuel-bounded interpreter succeeds and agrees with
`processNode` on a concrete tree, and a concrete unrecognized tag falls
through to its children. -/
theorem htmlToMarkdown_total_witness :
    processNodeF (5 * sizeOf (Node.element "em" [] [Node.text "hi"]))
        (Node.element "em" [] [Node.text "hi"]) =
      some (processNode (Node.element "em" [] [Node.text "hi"])) ∧
    processNode (Node.element "section" [] [Node.text "hi"]) =
      wrapWithElementFormatting (processNodes [Node.text "hi"])
        (toLowerS "section") := by
  refine ⟨htmlToMarkdown_total.1 _ _ (le_refl _),
    htmlToMarkdown_total.2.2 "section" [] [Node.text "hi"] ?_⟩
  simp [getDirectConversion, toLowerS]

/-- C10 witness: the link rule applied at a concrete anchor element with
metacharacters in its text. -/
theorem direct_conversion_no_escaping_witness :
    processNode (Node.element "a" [("href", "http://x")]
      [Node.text "p_q"]) = "[p_q](http://x)" := by
  have h := direct_conversion_no_escaping.1 "a" "http://x"
    [("href", "http://x")] [Node.text "p_q"] (by decide)
    (by simp [getAttr]) (by decide) (by decide)
  rw [h]
  simp [textContentL, trimS]
  decide

theorem hasRun3_cons_of_ne {c : Char} (hc : c ≠ '\n') (ys : List Char) :
    hasRun3 (c :: ys) = hasRun3 ys := by
  match ys with
  | [] => simp [hasRun3]
  | [y] => simp [hasRun3]
  | y1 :: y2 :: rest => simp [hasRun3, hc]

theorem hasRun3_cons_of_run {l : List Char} (h : hasRun3 l = true)
    (x : Char) : hasRun3 (x :: l) = true := by
  match l with
  | [] => simp [hasRun3] at h
  | [y] => simp [hasRun3] at h
  | y1 :: y2 :: rest => simp [hasRun3] at h ⊢; tauto

theorem hasRun3_append_of_right {l2 : List Char} (h : hasRun3 l2 = true)
    (l1 : List Char) : hasRun3 (l1 ++ l2) = true := by
  induction l1 with
  | nil => simpa using h
  | cons x l1 ih => exact hasRun3_cons_of_run ih x

theorem hasRun3_nl_cons {c : Char} (hc : c ≠ '\n') (ys : List Char) :
    hasRun3 ('\n' :: c :: ys) = hasRun3 (c :: ys) := by
  cases ys with
  | nil => simp [hasRun3]
  | cons y rest => simp [hasRun3, hc]

theorem hasRun3_nl_nl_cons {c : Char} (hc : c ≠ '\n') (ys : List Char) :
    hasRun3 ('\n' :: '\n' :: c :: ys) = hasRun3 (c :: ys) := by
  simp [hasRun3, hc, hasRun3_nl_cons hc, hasRun3_cons_of_ne hc]

theorem hasRun3_flushN_cons {c : Char} (hc : c ≠ '\n') (k : Nat)
    (ys : List Char) :
    hasRun3 (flushN k ++ c :: ys) = hasRun3 (c :: ys) := by
  have h1 := hasRun3_nl_cons hc ys
  have h2 := hasRun3_nl_nl_cons hc ys
  by_cases h3 : 3 ≤ k
  · simp only [flushN, if_pos h3]
    rw [show List.replicate 2 '\n' ++ c :: ys = '\n' :: '\n' :: c :: ys
      from rfl]
    exact h2
  · interval_cases k
    · simp [flushN]
    · simp only [flushN, show ¬ (3 ≤ 1) by omega, if_false]
      rw [show List.replicate 1 '\n' ++ c :: ys = '\n' :: c :: ys from rfl]
      exact h1
    · simp only [flushN, show ¬ (3 ≤ 2) by omega, if_false]
      rw [show List.replicate 2 '\n' ++ c :: ys = '\n' :: '\n' :: c :: ys
        from rfl]
      exact h2

theorem hasRun3_flushN (k : Nat) : hasRun3 (flushN k) = false := by
  by_cases h3 : 3 ≤ k
  · simp [flushN, h3]; decide
  · interval_cases k <;> decide

theorem collapseAux_no_run3 (xs : List Char) :
    ∀ k, hasRun3 (collapseAux k xs) = false := by
  induction xs with
  | nil => intro k; simpa [collapseAux] using hasRun3_flushN k
  | cons c rest ih =>
    intro k
    by_cases hc : c = '\n'
    · subst hc; simpa [collapseAux] using ih (k + 1)
    · simp only [collapseAux, if_neg hc]
      rw [hasRun3_flushN_cons hc, hasRun3_cons_of_ne hc]
      exact ih 0

theorem collapseAux_id (xs : List Char) :
    ∀ k, k ≤ 2 →
      hasRun3 (List.replicate k '\n' ++ xs) = false →
      collapseAux k xs = List.replicate k '\n' ++ xs := by
  induction xs with
  | nil =>
    intro k hk _
    simp [collapseAux, flushN, Nat.not_le.2 (by omega : k < 3)]
  | cons c rest ih =>
    intro k hk h
    by_cases hc : c = '\n'
    · subst hc
      have hk1 : k ≤ 1 := by
        by_contra hk1
        have hk2 : k = 2 := by omega
        subst hk2
        rw [show List.replicate 2 '\n' ++ '\n' :: rest =
          '\n' :: '\n' :: '\n' :: rest from rfl] at h
        simp [hasRun3] at h
      have hres : List.replicate k '\n' ++ '\n' :: rest =
          List.replicate (k + 1) '\n' ++ rest := by
        rw [List.replicate_succ']
        simp
      rw [hres] at h
      rw [show collapseAux k ('\n' :: rest) = collapseAux (k + 1) rest
        from by simp [collapseAux]]
      rw [ih (k + 1) (by omega) h, hres]
    · have hrest : hasRun3 rest = false := by
        cases hcase : hasRun3 rest
        · rfl
        · exfalso
          have h2 : hasRun3 (c :: rest) = true := by
            rw [hasRun3_cons_of_ne hc]; exact hcase
          have h3 := hasRun3_append_of_right h2 (List.replicate k '\n')
          rw [h3] at h
          exact Bool.noConfusion h
      rw [show collapseAux k (c :: rest) = flushN k ++ c :: collapseAux 0 rest
        from by simp [collapseAux, hc]]
      rw [show collapseAux 0 rest = List.replicate 0 '\n' ++ rest
        from ih 0 (by omega) (by simpa using hrest)]
      simp [flushN, show ¬ (3 ≤ k) by omega]

theorem head?_dropWhile_not {p : Char → Bool} :
    ∀ {l : List Char} {a : Char}, (l.dropWhile p).head? = some a → p a = false := by
  intro l
  induction l with
  | nil => intro a h; simp [List.dropWhile] at h
  | cons x xs ih =>
    intro a h
    rw [List.dropWhile_cons] at h
    by_cases hp : p x
    · rw [if_pos hp] at h; exact ih h
    · rw [if_neg hp] at h
      simp at h
      subst h
      simpa using hp

theorem dropWhile_eq_self_of_head {p : Char → Bool} {l : List Char}
    (h : ∀ a, l.head? = some a → p a = false) : l.dropWhile p = l := by
  cases l with
  | nil => rfl
  | cons x xs =>
    rw [List.dropWhile_cons, if_neg]
    simp [h x rfl]

theorem getLast?_dropWhile_of_ne_nil {p : Char → Bool} :
    ∀ {l : List Char}, l.dropWhile p ≠ [] →
      (l.dropWhile p).getLast? = l.getLast? := by
  intro l
  induction l with
  | nil => intro h; simp [List.dropWhile] at h
  | cons x xs ih =>
    intro h
    rw [List.dropWhile_cons]
    by_cases hp : p x
    · rw [List.dropWhile_cons, if_pos hp] at h
      rw [if_pos hp, ih h]
      have hxs : xs ≠ [] := by
        intro hx; subst hx; simp [List.dropWhile] at h
      cases xs with
      | nil => exact absurd rfl hxs
      | cons b m => exact (List.getLast?_cons_cons).symm
    · rw [if_neg hp]

theorem stripLine_getLast (l : List Char) {a : Char}
    (h : (stripLine l).getLast? = some a) : a ≠ ' ' := by
  intro ha
  subst ha
  rw [stripLine, List.getLast?_reverse] at h
  have := head?_dropWhile_not h
  simp at this

theorem stripLine_eq_self {l : List Char} (h : l.getLast? ≠ some ' ') :
    stripLine l = l := by
  rw [stripLine, dropWhile_eq_self_of_head, List.reverse_reverse]
  intro a ha
  rw [List.head?_reverse] at ha
  simp only [decide_eq_false_iff_not]
  intro haeq
  subst haeq
  exact h ha

theorem splitNl_ne_nil : ∀ xs : List Char, splitNl xs ≠ [] := by
  intro xs
  cases xs with
  | nil => simp [splitNl]
  | cons c rest =>
    by_cases hc : c = '\n'
    · simp [splitNl, hc]
    · simp only [splitNl, if_neg hc]
      cases h : splitNl rest <;> simp

theorem splitNl_no_newline :
    ∀ (xs : List Char) (l : List Char), l ∈ splitNl xs → '\n' ∉ l := by
  intro xs
  induction xs with
  | nil => intro l hl; simp [splitNl] at hl; simp [hl]
  | cons c rest ih =>
    intro l hl
    by_cases hc : c = '\n'
    · rw [splitNl, if_pos hc] at hl
      rcases List.mem_cons.1 hl with h | h
      · simp [h]
      · exact ih l h
    · rw [splitNl, if_neg hc] at hl
      cases hsp : splitNl rest with
      | nil => exact absurd hsp (splitNl_ne_nil rest)
      | cons p ps =>
        rw [hsp] at hl
        rcases List.mem_cons.1 hl with h | h
        · subst h
          intro hmem
          rcases List.mem_cons.1 hmem with h | h
          · exact hc h.symm
          · exact ih p (hsp ▸ List.mem_cons_self p ps) h
        · exact ih l (hsp ▸ List.mem_cons.2 (Or.inr h))

theorem splitNl_eq_self_of_no_newline :
    ∀ {l : List Char}, '\n' ∉ l → splitNl l = [l] := by
  intro l
  induction l with
  | nil => intro _; rfl
  | cons c rest ih =>
    intro h
    have hc : c ≠ '\n' := fun hc => h (hc ▸ List.mem_cons_self c rest)
    have hrest : '\n' ∉ rest := fun hr => h (List.mem_cons.2 (Or.inr hr))
    rw [splitNl, if_neg hc, ih hrest]

theorem splitNl_append_newline {p : List Char} (hp : '\n' ∉ p)
    (t : List Char) : splitNl (p ++ '\n' :: t) = p :: splitNl t := by
  induction p with
  | nil => simp [splitNl]
  | cons c rest ih =>
    have hc : c ≠ '\n' := fun hc => hp (hc ▸ List.mem_cons_self c rest)
    have hrest : '\n' ∉ rest := fun hr => hp (List.mem_cons.2 (Or.inr hr))
    rw [List.cons_append, splitNl, if_neg hc, ih hrest]

theorem splitNl_joinNl :
    ∀ ps : List (List Char), ps ≠ [] → (∀ p ∈ ps, '\n' ∉ p) →
      splitNl (joinNl ps) = ps := by
  intro ps
  induction ps with
  | nil => intro h; exact absurd rfl h
  | cons p ps ih =>
    intro _ hall
    cases ps with
    | nil =>
      exact splitNl_eq_self_of_no_newline (hall p (List.mem_cons_self p []))
    | cons q qs =>
      rw [show joinNl (p :: q :: qs) = p ++ '\n' :: joinNl (q :: qs) from rfl]
      rw [splitNl_append_newline (hall p (List.mem_cons_self p _))]
      rw [ih (by simp) (fun r hr => hall r (List.mem_cons.2 (Or.inr hr)))]

theorem joinNl_splitNl : ∀ xs : List Char, joinNl (splitNl xs) = xs := by
  intro xs
  induction xs with
  | nil => rfl
  | cons c rest ih =>
    by_cases hc : c = '\n'
    · subst hc
      rw [splitNl, if_pos rfl]
      cases h : splitNl rest with
      | nil => exact absurd h (splitNl_ne_nil rest)
      | cons p ps =>
        rw [show joinNl ([] :: p :: ps) = [] ++ '\n' :: joinNl (p :: ps)
          from rfl]
        rw [← h, ih]
        rfl
    · rw [splitNl, if_neg hc]
      cases h : splitNl rest with
      | nil => exact absurd h (splitNl_ne_nil rest)
      | cons p ps =>
        cases ps with
        | nil =>
          rw [show joinNl [c :: p] = c :: p from rfl]
          have : joinNl [p] = rest := by rw [← h, ih]
          rw [show joinNl [p] = p from rfl] at this
          rw [this]
        | cons q qs =>
          rw [show joinNl ((c :: p) :: q :: qs) =
            (c :: p) ++ '\n' :: joinNl (q :: qs) from rfl]
          have : joinNl (p :: q :: qs) = rest := by rw [← h, ih]
          rw [show joinNl (p :: q :: qs) = p ++ '\n' :: joinNl (q :: qs)
            from rfl] at this
          rw [List.cons_append, this]

theorem stripLine_no_newline {l : List Char} (h : '\n' ∉ l) :
    '\n' ∉ stripLine l := by
  intro hmem
  apply h
  rw [stripLine] at hmem
  rw [List.mem_reverse] at hmem
  have := List.dropWhile_sublist (l := l.reverse) (p := (· = ' '))
  have hmem2 : '\n' ∈ l.reverse := this.mem hmem
  rwa [List.mem_reverse] at hmem2

theorem stripTrailingSpaces_lines (s : String) :
    ∀ l ∈ splitNl (stripTrailingSpaces s).data, l.getLast? ≠ some ' ' := by
  intro l hl
  have hlines : splitNl (stripTrailingSpaces s).data =
      (splitNl s.data).map stripLine := by
    rw [show (stripTrailingSpaces s).data =
      joinNl ((splitNl s.data).map stripLine) from rfl]
    apply splitNl_joinNl
    · simp [splitNl_ne_nil s.data]
    · intro p hp
      rcases List.mem_map.1 hp with ⟨q, hq, rfl⟩
      exact stripLine_no_newline (splitNl_no_newline s.data q hq)
  rw [hlines] at hl
  rcases List.mem_map.1 hl with ⟨q, _, rfl⟩
  intro hlast
  exact stripLine_getLast q hlast rfl

theorem trimL_getLast {xs : List Char} {a : Char}
    (h : (trimL xs).getLast? = some a) : isWS a = false := by
  rw [trimL, List.getLast?_reverse] at h
  exact head?_dropWhile_not h

theorem trimL_head {xs : List Char} {a : Char}
    (h : (trimL xs).head? = some a) : isWS a = false := by
  rw [trimL, List.head?_reverse] at h
  have hne : (((xs.dropWhile isWS).reverse).dropWhile isWS) ≠ [] := by
    intro hnil
    rw [hnil] at h
    simp at h
  rw [getLast?_dropWhile_of_ne_nil hne, List.getLast?_reverse] at h
  exact head?_dropWhile_not h

theorem trimL_eq_self {xs : List Char}
    (hh : ∀ a, xs.head? = some a → isWS a = false)
    (hl : ∀ a, xs.getLast? = some a → isWS a = false) :
    trimL xs = xs := by
  rw [trimL, dropWhile_eq_self_of_head hh, dropWhile_eq_self_of_head,
    List.reverse_reverse]
  intro a ha
  rw [List.head?_reverse] at ha
  exact hl a ha

theorem trimL_idem (xs : List Char) : trimL (trimL xs) = trimL xs :=
  trimL_eq_self (fun _ h => trimL_head h) (fun _ h => trimL_getLast h)

/-- C4 counterexample: the final output of `convert` can contain a run of
three consecutive newlines (space-only lines lose their spaces only
after newline runs were collapsed), and a line of the final output can
end in whitespace (a tab), because the strip regex removes only the
space character. -/
theorem cleanupMarkdown_counterexample :
    htmlToMarkdown (Node.element "div" []
      [Node.text "a", Node.element "br" [] [], Node.text " ",
       Node.element "br" [] [], Node.text " ", Node.element "br" [] [],
       Node.text "b"]) = "a\n\n\nb" ∧
    hasRun3 ("a\n\n\nb").data = true ∧
    cleanupMarkdown "a\t\nb" = "a\t\nb" ∧
    (splitNl ("a\t\nb").data).head? = some ['a', '\t'] ∧
    isWS '\t' = true := by
  refine ⟨?_, by decide, by decide, by decide, by decide⟩
  simp [htmlToMarkdown, processNode, getDirectConversion, convertList,
    convertListItems, processNodes, cleanupMarkdown, escapeMarkdown,
    replaceChar, trimS, textContentL, wrapWithElementFormatting]
  decide

/-- C4 amended: the cleanup pass, applied once to the whole-tree result,
first collapses every run of three or more newlines to exactly two, then
strips trailing space characters (U+0020 only) from every line, then
trims the whole result; after the collapse stage there is no
three-newline run, after the strip stage no line ends in a space, and
the final result carries no leading or trailing whitespace — but the
space stripping happens after the collapse, so it can create a new
three-newline run in the final output, and lines may still end in
non-space whitespace. -/
theorem cleanupMarkdown_spec :
    (∀ s, cleanupMarkdown s =
      trimS (stripTrailingSpaces (collapseNewlines s))) ∧
    (∀ s, hasRun3 (collapseNewlines s).data = false) ∧
    (∀ s, ∀ l ∈ splitNl (stripTrailingSpaces s).data,
      l.getLast? ≠ some ' ') ∧
    (∀ s, trimS (cleanupMarkdown s) = cleanupMarkdown s) := by
  refine ⟨fun s => rfl, fun s => collapseAux_no_run3 s.data 0,
    stripTrailingSpaces_lines, fun s => ?_⟩
  show (⟨trimL (trimL (stripTrailingSpaces (collapseNewlines s)).data)⟩ :
    String) = ⟨trimL (stripTrailingSpaces (collapseNewlines s)).data⟩
  rw [trimL_idem]

/-- C4 witness: a concrete line produced by the strip stage, which indeed
does not end in a space. -/
theorem cleanupMarkdown_spec_witness :
    (['x'] ∈ splitNl (stripTrailingSpaces "x \ny").data) ∧
    ¬ (['x'].getLast? = some ' ') :=
  ⟨by decide, cleanupMarkdown_spec.2.2.1 "x \ny" ['x'] (by decide)⟩

theorem escapeSpecL_id {xs : List Char} (h : ∀ c ∈ xs, isMeta c = false) :
    escapeSpecL xs = xs := by
  induction xs with
  | nil => rfl
  | cons c rest ih =>
    rw [escapeSpecL, h c (List.mem_cons_self c rest), if_neg (by simp)]
    rw [ih (fun d hd => h d (List.mem_cons.2 (Or.inr hd)))]
    rfl

theorem collapseNewlines_id {s : String} (h : hasRun3 s.data = false) :
    collapseNewlines s = s := by
  show (⟨collapseAux 0 s.data⟩ : String) = s
  rw [collapseAux_id s.data 0 (by omega) (by simpa using h)]
  rfl

theorem stripTrailingSpaces_id {s : String}
    (h : ∀ l ∈ splitNl s.data, l.getLast? ≠ some ' ') :
    stripTrailingSpaces s = s := by
  show (⟨joinNl ((splitNl s.data).map stripLine)⟩ : String) = s
  rw [List.map_congr_left (fun l hl => stripLine_eq_self (h l hl))]
  rw [show (splitNl s.data).map (fun a => a) = splitNl s.data by simp]
  rw [joinNl_splitNl]

/-- C7 counterexample: plain text with no metacharacters is not returned
unchanged modulo surrounding trim — a space before an interior newline is
removed by the cleanup pass. -/
theorem plain_text_counterexample :
    ("a \nb".data.all (fun c => !isMeta c) = true) ∧
    htmlToMarkdown (Node.text "a \nb") = "a\nb" ∧
    trimS "a \nb" = "a \nb" ∧
    ("a\nb" : String) ≠ "a \nb" := by
  refine ⟨by decide, ?_, by decide, by decide⟩
  simp [htmlToMarkdown, processNode, escapeMarkdown, replaceChar,
    cleanupMarkdown]
  decide

/-- C7 amended: for every text-only input containing no escape
metacharacter, no run of three or more consecutive newlines, and no line
ending in a space character, `convert` returns the text unchanged modulo
trimming of surrounding whitespace (without the two whitespace side
conditions, cleanup also rewrites interior whitespace). -/
theorem plain_text_identity (s : String)
    (hmeta : s.data.all (fun c => !isMeta c) = true)
    (hrun : hasRun3 s.data = false)
    (hsp : ∀ l ∈ splitNl s.data, l.getLast? ≠ some ' ') :
    htmlToMarkdown (Node.text s) = trimS s := by
  have hmeta' : ∀ c ∈ s.data, isMeta c = false := fun c hc => by
    simpa using List.all_eq_true.1 hmeta c hc
  have hesc : escapeMarkdown s = s := by
    rw [escapeMarkdown_eq_escapeL, escapeL_eq_spec, escapeSpecL_id hmeta']
  rw [show htmlToMarkdown (Node.text s) =
    cleanupMarkdown (processNode (Node.text s)) from rfl]
  rw [show processNode (Node.text s) = escapeMarkdown s from by
    simp [processNode]]
  rw [hesc, cleanupMarkdown, collapseNewlines_id hrun,
    stripTrailingSpaces_id hsp]

/-- C7 witness: ordinary metacharacter-free text passes through `convert`
unchanged. -/
theorem plain_text_identity_witness :
    htmlToMarkdown (Node.text "hello world") = trimS "hello world" ∧
    trimS "hello world" = "hello world" :=
  ⟨plain_text_identity "hello world" (by decide) (by decide) (by decide),
   by decide⟩

theorem count_dropWhile_of_neg {p : Char → Bool} {c : Char}
    (hpc : p c = false) :
    ∀ l : List Char, (l.dropWhile p).count c = l.count c := by
  intro l
  induction l with
  | nil => rfl
  | cons x xs ih =>
    rw [List.dropWhile_cons]
    by_cases hp : p x
    · have hxc : (x == c) = false := beq_eq_false_iff_ne.2 (by
        intro he; rw [he] at hp; rw [hp] at hpc; exact Bool.noConfusion hpc)
      rw [if_pos hp, ih, List.count_cons, hxc]
      simp
    · rw [if_neg hp]

theorem count_trimL (xs : List Char) {c : Char} (hc : isWS c = false) :
    (trimL xs).count c = xs.count c := by
  rw [trimL, List.count_reverse, count_dropWhile_of_neg hc,
    List.count_reverse, count_dropWhile_of_neg hc]

theorem countTick_trimS (s : String) : countTick (trimS s) = countTick s :=
  count_trimL s.data (by decide)

theorem count_replaceCharL {c r ch} (hch : ch ≠ c) (hr : r.count ch = 0) :
    ∀ xs : List Char, (replaceCharL c r xs).count ch = xs.count ch := by
  intro xs
  induction xs with
  | nil => rfl
  | cons x rest ih =>
    rw [replaceCharL, List.count_append, ih]
    by_cases hx : x = c
    · have hxch : (x == ch) = false := beq_eq_false_iff_ne.2 (by
        rw [hx]; exact fun h => hch h.symm)
      rw [if_pos hx, hr, List.count_cons, hxch]
      simp
    · rw [if_neg hx, List.count_cons, List.count_cons]
      simp [List.count_nil]
      omega

theorem count_escapeSpecL (xs : List Char) :
    (escapeSpecL xs).count '`' = xs.count '`' := by
  induction xs with
  | nil => rfl
  | cons c rest ih =>
    rw [escapeSpecL, List.count_append, ih]
    by_cases hm : isMeta c
    · rw [if_pos hm]
      have hc : c ≠ '`' := by
        intro hc; rw [hc] at hm; exact Bool.noConfusion hm
      simp [List.count_cons, hc]
    · rw [if_neg hm, List.count_cons, List.count_cons]
      simp [List.count_nil]
      omega

theorem countTick_escapeMarkdown (s : String) :
    countTick (escapeMarkdown s) = countTick s := by
  rw [escapeMarkdown_eq_escapeL, escapeL_eq_spec]
  exact count_escapeSpecL s.data

theorem count_flushN (k : Nat) : (flushN k).count '`' = 0 := by
  rw [flushN, List.count_eq_zero]
  intro h
  have h2 := List.eq_of_mem_replicate h
  exact absurd h2 (by decide)

theorem count_collapseAux (xs : List Char) :
    ∀ k, (collapseAux k xs).count '`' = xs.count '`' := by
  induction xs with
  | nil =>
    intro k
    rw [show collapseAux k [] = flushN k from rfl, count_flushN]
    rfl
  | cons c rest ih =>
    intro k
    by_cases hc : c = '\n'
    · subst hc
      rw [show collapseAux k ('\n' :: rest) = collapseAux (k + 1) rest
        from by simp [collapseAux], ih (k + 1), List.count_cons]
      simp
    · rw [show collapseAux k (c :: rest) = flushN k ++ c :: collapseAux 0 rest
        from by simp [collapseAux, hc]]
      rw [List.count_append, count_flushN, List.count_cons, List.count_cons,
        ih 0]
      omega

theorem countTick_collapseNewlines (s : String) :
    countTick (collapseNewlines s) = countTick s :=
  count_collapseAux s.data 0

theorem count_joinNl (ps : List (List Char)) :
    (joinNl ps).count '`' = (ps.map (fun l => l.count '`')).sum := by
  induction ps with
  | nil => rfl
  | cons p ps ih =>
    cases ps with
    | nil => simp [joinNl]
    | cons q qs =>
      rw [show joinNl (p :: q :: qs) = p ++ '\n' :: joinNl (q :: qs)
        from rfl]
      rw [List.count_append, List.count_cons, ih]
      simp

theorem count_splitNl_sum (xs : List Char) :
    ((splitNl xs).map (fun l => l.count '`')).sum = xs.count '`' := by
  rw [← count_joinNl, joinNl_splitNl]

theorem count_stripLine (l : List Char) :
    (stripLine l).count '`' = l.count '`' := by
  rw [stripLine, List.count_reverse, count_dropWhile_of_neg (by decide),
    List.count_reverse]

theorem countTick_stripTrailingSpaces (s : String) :
    countTick (stripTrailingSpaces s) = countTick s := by
  show (joinNl ((splitNl s.data).map stripLine)).count '`' = s.data.count '`'
  rw [count_joinNl, List.map_map]
  rw [show ((fun l => l.count '`') ∘ stripLine) =
    (fun l : List Char => l.count '`') from funext count_stripLine]
  exact count_splitNl_sum s.data

theorem countTick_cleanupMarkdown (s : String) :
    countTick (cleanupMarkdown s) = countTick s := by
  rw [show cleanupMarkdown s =
    trimS (stripTrailingSpaces (collapseNewlines s)) from rfl]
  rw [countTick_trimS, countTick_stripTrailingSpaces,
    countTick_collapseNewlines]

theorem countTick_append (a b : String) :
    countTick (a ++ b) = countTick a + countTick b := by
  rw [countTick, countTick, countTick, String.data_append, List.count_append]

theorem countTick_of_contains_false {s : String}
    (h : s.data.contains '`' = false) : countTick s = 0 :=
  List.count_eq_zero.2 (by simpa using h)

theorem digitChar_ne_tick : ∀ m, m < 10 → digitChar m ≠ '`' := by decide

theorem count_natToDecimalAux :
    ∀ fuel n, (natToDecimalAux fuel n).count '`' = 0 := by
  intro fuel
  induction fuel with
  | zero => intro n; rfl
  | succ f ih =>
    intro n
    rw [natToDecimalAux]
    by_cases h : n < 10
    · rw [if_pos h]
      have hb := beq_eq_false_iff_ne.2 (digitChar_ne_tick n h)
      simp [List.count_cons, hb]
    · rw [if_neg h, List.count_append, ih]
      have hm : n % 10 < 10 := Nat.mod_lt _ (by omega)
      have hb := beq_eq_false_iff_ne.2 (digitChar_ne_tick _ hm)
      simp [List.count_cons, hb]

theorem countTick_natToDecimal (n : Nat) : countTick (natToDecimal n) = 0 :=
  count_natToDecimalAux (n + 1) n

theorem count_textContentL_aux :
    ∀ k, ∀ cs : List Node, sizeOf cs ≤ k → nodesTickFree cs = true →
      countTick (textContentL cs) = 0 := by
  intro k
  induction k with
  | zero =>
    intro cs h _
    have := list_sizeOf_pos cs
    omega
  | succ k ih =>
    intro cs hsz htf
    cases cs with
    | nil =>
      rw [show textContentL [] = "" from by simp [textContentL]]
      rfl
    | cons c rest =>
      cases c with
      | text s =>
        rw [show textContentL (Node.text s :: rest) = s ++ textContentL rest
          from by simp [textContentL]]
        rw [show nodesTickFree (Node.text s :: rest) =
          (nodeTickFree (Node.text s) && nodesTickFree rest) from by
            simp [nodesTickFree]] at htf
        rw [show nodeTickFree (Node.text s) = !s.data.contains '`' from by
          simp [nodeTickFree]] at htf
        simp only [Bool.and_eq_true, Bool.not_eq_true'] at htf
        have hrest : sizeOf rest ≤ k := by
          simp only [List.cons.sizeOf_spec] at hsz
          have := node_sizeOf_pos (Node.text s)
          omega
        rw [countTick_append, countTick_of_contains_false htf.1,
          ih rest hrest htf.2]
      | element t a cs' =>
        rw [show textContentL (Node.element t a cs' :: rest) =
          textContentL cs' ++ textContentL rest from by simp [textContentL]]
        rw [show nodesTickFree (Node.element t a cs' :: rest) =
          (nodeTickFree (Node.element t a cs') && nodesTickFree rest) from by
            simp [nodesTickFree]] at htf
        rw [show nodeTickFree (Node.element t a cs') =
          (attrsTickFree a && nodesTickFree cs') from by
            simp [nodeTickFree]] at htf
        simp only [Bool.and_eq_true] at htf
        have hcs' : sizeOf cs' ≤ k := by
          simp only [List.cons.sizeOf_spec, Node.element.sizeOf_spec] at hsz
          omega
        have hrest : sizeOf rest ≤ k := by
          simp only [List.cons.sizeOf_spec, Node.element.sizeOf_spec] at hsz
          omega
        rw [countTick_append, ih cs' hcs' htf.1.2, ih rest hrest htf.2]

theorem count_textContentL {cs : List Node} (h : nodesTickFree cs = true) :
    countTick (textContentL cs) = 0 :=
  count_textContentL_aux (sizeOf cs) cs (le_refl _) h

theorem count_getAttr :
    ∀ {attrs : List (String × String)}, attrsTickFree attrs = true →
      ∀ {name v : String}, getAttr attrs name = some v → countTick v = 0 := by
  intro attrs
  induction attrs with
  | nil => intro _ name v hv; simp [getAttr] at hv
  | cons p rest ih =>
    intro h name v hv
    obtain ⟨nm, vv⟩ := p
    rw [show attrsTickFree ((nm, vv) :: rest) =
      (!vv.data.contains '`' && attrsTickFree rest) from rfl] at h
    simp only [Bool.and_eq_true, Bool.not_eq_true'] at h
    rw [getAttr] at hv
    by_cases hnm : nm = name
    · rw [show List.find? (fun p => decide (p.1 = name)) ((nm, vv) :: rest)
        = some (nm, vv) from by simp [List.find?, hnm]] at hv
      simp at hv
      rw [← hv]
      exact countTick_of_contains_false h.1
    · rw [show List.find? (fun p => decide (p.1 = name)) ((nm, vv) :: rest)
        = List.find? (fun p => decide (p.1 = name)) rest from by
          simp [List.find?, hnm]] at hv
      exact ih h.2 hv

theorem sum_count_filter_ne_nil (ps : List (List Char)) :
    ((ps.filter (fun l => l ≠ [])).map (fun l => l.count '`')).sum =
      (ps.map (fun l => l.count '`')).sum := by
  induction ps with
  | nil => rfl
  | cons p ps ih =>
    rw [List.filter_cons]
    by_cases hp : p = []
    · subst hp
      rw [if_neg (by simp), ih, List.map_cons, List.sum_cons]
      simp
    · rw [if_pos (by simp [hp]), List.map_cons, List.sum_cons, ih,
        List.map_cons, List.sum_cons]

theorem count_blockquote_lines (xs : List Char) :
    (joinNl (((splitNl xs).filter (fun l => l ≠ [])).map
      (fun line => '>' :: ' ' :: line))).count '`' = xs.count '`' := by
  rw [count_joinNl, List.map_map]
  rw [show ((fun l => l.count '`') ∘ fun line : List Char =>
      '>' :: ' ' :: line) = fun l : List Char => l.count '`' from by
    funext l
    simp [List.count_cons, show (('>' : Char) == '`') = false from by decide,
      show ((' ' : Char) == '`') = false from by decide]]
  rw [sum_count_filter_ne_nil, count_splitNl_sum]

theorem count_wrap_even {content : String} (tn : String)
    (h : countTick content % 2 = 0) :
    countTick (wrapWithElementFormatting content tn) % 2 = 0 := by
  have htc := countTick_trimS content
  by_cases h0 : trimS content = ""
  · simp [wrapWithElementFormatting, h0]
    decide
  · rw [wrapWithElementFormatting]
    simp only [if_neg h0]
    by_cases e1 : tn = "h1"
    · rw [if_pos e1, countTick_append, countTick_append]
      rw [show countTick "\n# " = 0 from rfl,
        show countTick "\n\n" = 0 from rfl, htc]
      omega
    rw [if_neg e1]
    by_cases e2 : tn = "h2"
    · rw [if_pos e2, countTick_append, countTick_append]
      rw [show countTick "\n## " = 0 from rfl,
        show countTick "\n\n" = 0 from rfl, htc]
      omega
    rw [if_neg e2]
    by_cases e3 : tn = "h3"
    · rw [if_pos e3, countTick_append, countTick_append]
      rw [show countTick "\n### " = 0 from rfl,
        show countTick "\n\n" = 0 from rfl, htc]
      omega
    rw [if_neg e3]
    by_cases e4 : tn = "h4"
    · rw [if_pos e4, countTick_append, countTick_append]
      rw [show countTick "\n#### " = 0 from rfl,
        show countTick "\n\n" = 0 from rfl, htc]
      omega
    rw [if_neg e4]
    by_cases e5 : tn = "h5"
    · rw [if_pos e5, countTick_append, countTick_append]
      rw [show countTick "\n##### " = 0 from rfl,
        show countTick "\n\n" = 0 from rfl, htc]
      omega
    rw [if_neg e5]
    by_cases e6 : tn = "h6"
    · rw [if_pos e6, countTick_append, countTick_append]
      rw [show countTick "\n###### " = 0 from rfl,
        show countTick "\n\n" = 0 from rfl, htc]
      omega
    rw [if_neg e6]
    by_cases e7 : tn = "blockquote"
    · rw [if_pos e7, countTick_append, countTick_append]
      rw [show countTick "\n" = 0 from rfl,
        show countTick "\n\n" = 0 from rfl]
      have hbq : countTick
          (⟨joinNl (((splitNl (trimS content).data).filter
            (fun l => l ≠ [])).map (fun line => '>' :: ' ' :: line))⟩ :
              String) = countTick (trimS content) :=
        count_blockquote_lines (trimS content).data
      rw [hbq, htc]
      omega
    rw [if_neg e7]
    by_cases e8 : tn = "p"
    · rw [if_pos e8, countTick_append, countTick_append]
      rw [show countTick "\n" = 0 from rfl,
        show countTick "\n\n" = 0 from rfl, htc]
      omega
    rw [if_neg e8]
    by_cases e9a : tn = "strong"
    · rw [if_pos (by simp [e9a]), countTick_append, countTick_append]
      rw [show countTick "**" = 0 from rfl, htc]
      omega
    by_cases e9b : tn = "b"
    · rw [if_pos (by simp [e9b]), countTick_append, countTick_append]
      rw [show countTick "**" = 0 from rfl, htc]
      omega
    rw [if_neg (by simp [e9a, e9b])]
    by_cases e10a : tn = "em"
    · rw [if_pos (by simp [e10a]), countTick_append, countTick_append]
      rw [show countTick "*" = 0 from rfl, htc]
      omega
    by_cases e10b : tn = "i"
    · rw [if_pos (by simp [e10b]), countTick_append, countTick_append]
      rw [show countTick "*" = 0 from rfl, htc]
      omega
    rw [if_neg (by simp [e10a, e10b])]
    by_cases e11 : tn = "li"
    · rw [if_pos e11]
      rfl
    rw [if_neg e11]
    exact h

theorem countTick_replaceChar_nl (x : String) :
    countTick (replaceChar x '\n' "\n  ") = countTick x :=
  count_replaceCharL (by decide) (by decide) x.data

theorem tick_parity :
    ∀ k : Nat,
    (∀ n, sizeOf n ≤ k → nodeTickFree n = true →
      countTick (processNode n) % 2 = 0) ∧
    (∀ cs, sizeOf cs ≤ k → nodesTickFree cs = true →
      countTick (processNodes cs) % 2 = 0) ∧
    (∀ cs b i, sizeOf cs ≤ k → nodesTickFree cs = true →
      countTick (convertListItems cs b i) % 2 = 0) := by
  intro k
  induction k with
  | zero =>
    refine ⟨fun n h => absurd h (by have := node_sizeOf_pos n; omega),
      fun cs h => absurd h (by have := list_sizeOf_pos cs; omega),
      fun cs b i h => absurd h (by have := list_sizeOf_pos cs; omega)⟩
  | succ k ih =>
    obtain ⟨ihN, ihL, ihI⟩ := ih
    refine ⟨?_, ?_, ?_⟩
    · intro n hsz htf
      cases n with
      | text s =>
        rw [show processNode (Node.text s) = escapeMarkdown s from by
          simp [processNode]]
        rw [countTick_escapeMarkdown]
        rw [show nodeTickFree (Node.text s) = !s.data.contains '`' from by
          simp [nodeTickFree]] at htf
        rw [countTick_of_contains_false (by simpa using htf)]
      | element tag attrs cs =>
        rw [show nodeTickFree (Node.element tag attrs cs) =
          (attrsTickFree attrs && nodesTickFree cs) from by
            simp [nodeTickFree]] at htf
        simp only [Bool.and_eq_true] at htf
        obtain ⟨hattrs, hcs⟩ := htf
        have hszcs : sizeOf cs ≤ k := by
          simp only [Node.element.sizeOf_spec] at hsz; omega
        have htext := count_textContentL hcs
        by_cases h1 : toLowerS tag = "code"
        · rw [show processNode (Node.element tag attrs cs) =
            "`" ++ trimS (textContentL cs) ++ "`" from by
              simp [processNode, getDirectConversion, h1]]
          rw [countTick_append, countTick_append,
            show countTick "`" = 1 from rfl, countTick_trimS, htext]
        by_cases h2 : toLowerS tag = "pre"
        · rw [show processNode (Node.element tag attrs cs) =
            "\n```\n" ++ trimS (textContentL cs) ++ "\n```\n\n" from by
              simp [processNode, getDirectConversion, h1, h2]]
          rw [countTick_append, countTick_append,
            show countTick "\n```\n" = 3 from rfl,
            show countTick "\n```\n\n" = 3 from rfl, countTick_trimS, htext]
        by_cases h3 : toLowerS tag = "ul"
        · rw [show processNode (Node.element tag attrs cs) =
            "\n" ++ convertListItems cs false 1 ++ "\n" from by
              simp [processNode, getDirectConversion, convertList,
                h1, h2, h3]]
          rw [countTick_append, countTick_append,
            show countTick "\n" = 0 from rfl]
          have := ihI cs false 1 hszcs hcs
          omega
        by_cases h4 : toLowerS tag = "ol"
        · rw [show processNode (Node.element tag attrs cs) =
            "\n" ++ convertListItems cs true 1 ++ "\n" from by
              simp [processNode, getDirectConversion, convertList,
                h1, h2, h3, h4]]
          rw [countTick_append, countTick_append,
            show countTick "\n" = 0 from rfl]
          have := ihI cs true 1 hszcs hcs
          omega
        by_cases h5 : toLowerS tag = "a"
        · cases hha : getAttr attrs "href" with
          | none =>
            simp [processNode, getDirectConversion, h1, h2, h3, h4, h5,
              hha, countTick_trimS, htext]
          | some href =>
            have hhref := count_getAttr hattrs hha
            by_cases hne : href = ""
            · simp [processNode, getDirectConversion, h1, h2, h3, h4, h5,
                hha, hne, countTick_trimS, htext]
            · by_cases hsw : strStartsWith href "http"
              · simp [processNode, getDirectConversion, h1, h2, h3, h4, h5,
                  hha, hne, hsw, countTick_append, countTick_trimS, htext,
                  hhref, show countTick "[" = 0 from rfl,
                  show countTick "](" = 0 from rfl,
                  show countTick ")" = 0 from rfl]
              · simp [processNode, getDirectConversion, h1, h2, h3, h4, h5,
                  hha, hne, hsw, countTick_trimS, htext]
        by_cases h6 : toLowerS tag = "img"
        · cases hsa : getAttr attrs "src" with
          | none =>
            simp [processNode, getDirectConversion, h1, h2, h3, h4, h5, h6,
              hsa, countTick]
          | some src =>
            have hsrc0 := count_getAttr hattrs hsa
            by_cases hsrc : src = ""
            · simp [processNode, getDirectConversion, h1, h2, h3, h4, h5,
                h6, hsa, hsrc, countTick]
            · cases hal : getAttr attrs "alt" with
              | none =>
                simp [processNode, getDirectConversion, h1, h2, h3, h4,
                  h5, h6, hsa, hsrc, hal, countTick_append, hsrc0,
                  show countTick "![Image](" = 0 from rfl,
                  show countTick "![" = 0 from rfl,
                  show countTick "Image" = 0 from rfl,
                  show countTick "](" = 0 from rfl,
                  show countTick ")" = 0 from rfl]
              | some alt =>
                have halt0 := count_getAttr hattrs hal
                by_cases haltb : alt = ""
                · simp [processNode, getDirectConversion, h1, h2, h3, h4,
                    h5, h6, hsa, hsrc, hal, haltb, countTick_append, hsrc0,
                    show countTick "![Image](" = 0 from rfl,
                    show countTick "![" = 0 from rfl,
                    show countTick "Image" = 0 from rfl,
                    show countTick "](" = 0 from rfl,
                    show countTick ")" = 0 from rfl]
                · simp [processNode, getDirectConversion, h1, h2, h3, h4,
                    h5, h6, hsa, hsrc, hal, haltb, countTick_append, hsrc0,
                    halt0, show countTick "![" = 0 from rfl,
                    show countTick "](" = 0 from rfl,
                    show countTick ")" = 0 from rfl]
        by_cases h7 : toLowerS tag = "br"
        · rw [show processNode (Node.element tag attrs cs) = "\n" from by
            simp [processNode, getDirectConversion, h1, h2, h3, h4, h5, h6,
              h7]]
          rfl
        by_cases h8 : toLowerS tag = "hr"
        · rw [show processNode (Node.element tag attrs cs) = "\n---\n\n"
            from by
              simp [processNode, getDirectConversion, h1, h2, h3, h4, h5, h6,
                h7, h8]]
          rfl
        · have hnone : getDirectConversion tag attrs cs (toLowerS tag) =
              none := by
            simp [getDirectConversion, h1, h2, h3, h4, h5, h6, h7, h8]
          rw [show processNode (Node.element tag attrs cs) =
            wrapWithElementFormatting (processNodes cs) (toLowerS tag)
            from by simp [processNode, hnone]]
          exact count_wrap_even _ (ihL cs hszcs hcs)
    · intro cs hsz htf
      cases cs with
      | nil =>
        rw [show processNodes [] = "" from by simp [processNodes]]
        rfl
      | cons c rest =>
        rw [show nodesTickFree (c :: rest) =
          (nodeTickFree c && nodesTickFree rest) from by
            simp [nodesTickFree]] at htf
        simp only [Bool.and_eq_true] at htf
        have hc : sizeOf c ≤ k := by
          simp only [List.cons.sizeOf_spec] at hsz
          have := list_sizeOf_pos rest
          omega
        have hrest : sizeOf rest ≤ k := by
          simp only [List.cons.sizeOf_spec] at hsz
          have := node_sizeOf_pos c
          omega
        rw [show processNodes (c :: rest) =
          processNode c ++ processNodes rest from by simp [processNodes]]
        rw [countTick_append]
        have hA := ihN c hc htf.1
        have hB := ihL rest hrest htf.2
        omega
    · intro cs b i hsz htf
      cases cs with
      | nil =>
        rw [show convertListItems [] b i = "" from by
          simp [convertListItems]]
        rfl
      | cons c rest =>
        rw [show nodesTickFree (c :: rest) =
          (nodeTickFree c && nodesTickFree rest) from by
            simp [nodesTickFree]] at htf
        simp only [Bool.and_eq_true] at htf
        cases c with
        | text s =>
          have hrest : sizeOf rest ≤ k := by
            simp only [List.cons.sizeOf_spec] at hsz
            have := node_sizeOf_pos (Node.text s)
            omega
          rw [show convertListItems (Node.text s :: rest) b i =
            convertListItems rest b i from by simp [convertListItems]]
          exact ihI rest b i hrest htf.2
        | element t a cs' =>
          rw [show nodeTickFree (Node.element t a cs') =
            (attrsTickFree a && nodesTickFree cs') from by
              simp [nodeTickFree]] at htf
          simp only [Bool.and_eq_true] at htf
          have hrest : sizeOf rest ≤ k := by
            simp only [List.cons.sizeOf_spec] at hsz
            have := node_sizeOf_pos (Node.element t a cs')
            omega
          have hcs' : sizeOf cs' ≤ k := by
            simp only [List.cons.sizeOf_spec, Node.element.sizeOf_spec]
              at hsz
            omega
          by_cases hli : toLowerS t = "li"
          · rw [show convertListItems (Node.element t a cs' :: rest) b i =
              (if b then natToDecimal i ++ ". " else "- ") ++
              replaceChar (trimS (processNodes cs')) '\n' "\n  " ++ "\n" ++
              convertListItems rest b (if b then i + 1 else i) from by
                simp [convertListItems, hli]]
            rw [countTick_append, countTick_append, countTick_append]
            have hpfx : countTick (if b then natToDecimal i ++ ". " else "- ")
                = 0 := by
              cases b
              · rfl
              · rw [if_pos rfl, countTick_append, countTick_natToDecimal]
                rfl
            rw [hpfx, countTick_replaceChar_nl, countTick_trimS,
              show countTick "\n" = 0 from rfl]
            have hA := ihL cs' hcs' htf.1.2
            have hB := ihI rest b (if b then i + 1 else i) hrest htf.2
            omega
          · rw [show convertListItems (Node.element t a cs' :: rest) b i =
              convertListItems rest b i from by simp [convertListItems, hli]]
            exact ihI rest b i hrest htf.2

/-- C9 counterexample: a `pre` element whose text itself contains a fence
line produces output with three fence lines (an odd number of backticks),
i.e. an unbalanced fenced block. -/
theorem unbalanced_fence_counterexample :
    htmlToMarkdown (Node.element "pre" [] [Node.text "a\n```\nb"]) =
      "```\na\n```\nb\n```" ∧
    fenceLineCount "```\na\n```\nb\n```" = 3 ∧
    countTick "```\na\n```\nb\n```" = 9 ∧
    ¬ (3 % 2 = 0) := by
  refine ⟨?_, by decide, by decide, by decide⟩
  simp [htmlToMarkdown, processNode, getDirectConversion, processNodes,
    escapeMarkdown, replaceChar, trimS, textContentL, cleanupMarkdown]
  decide

/-- C9 amended: provided no text node and no attribute value contains a
backtick, every block-level wrap opens and closes within the call that
produced it, so the number of backticks in the whole output of `convert`
is even (code spans contribute two, fenced blocks six); text containing
backticks can forge unbalanced fences, since it is not escaped. -/
theorem convert_even_backticks (n : Node) (h : nodeTickFree n = true) :
    countTick (htmlToMarkdown n) % 2 = 0 := by
  rw [show htmlToMarkdown n = cleanupMarkdown (processNode n) from rfl,
    countTick_cleanupMarkdown]
  exact (tick_parity (sizeOf n)).1 n (le_refl _) h

/-- C9 witness: a concrete backtick-free tree with both a fenced block
and a code span has an even number of backticks in its output. -/
theorem convert_even_backticks_witness :
    nodeTickFree (Node.element "div" []
      [Node.element "pre" [] [Node.text "x"],
       Node.element "code" [] [Node.text "y"]]) = true ∧
    countTick (htmlToMarkdown (Node.element "div" []
      [Node.element "pre" [] [Node.text "x"],
       Node.element "code" [] [Node.text "y"]])) % 2 = 0 := by
  have h : nodeTickFree (Node.element "div" []
      [Node.element "pre" [] [Node.text "x"],
       Node.element "code" [] [Node.text "y"]]) = true := by
    simp [nodeTickFree, nodesTickFree, attrsTickFree]
  exact ⟨h, convert_even_backticks _ h⟩

end WebClipper
